import Mathlib

/-!
Shallow embedding of the gcauto commit-message tool (main.go) over `List Char`
strings.  Go strings are modelled at the Unicode-codepoint level: for valid
UTF-8 inputs the byte-level operations used by the program (HasPrefix,
HasSuffix, Contains, Split on "\n", Join, TrimSpace) coincide with the
codepoint-level operations defined here.
-/

namespace Gcauto

/-- Go `unicode.IsSpace`: the White_Space property (Latin-1 fast path plus the
Unicode space code points). -/
def goIsSpace (c : Char) : Bool :=
  c.toNat = 0x20 || (0x9 ≤ c.toNat && c.toNat ≤ 0xD) ||
  c.toNat = 0x85 || c.toNat = 0xA0 || c.toNat = 0x1680 ||
  (0x2000 ≤ c.toNat && c.toNat ≤ 0x200A) ||
  c.toNat = 0x2028 || c.toNat = 0x2029 || c.toNat = 0x202F ||
  c.toNat = 0x205F || c.toNat = 0x3000

/-- Leading-whitespace removal (left half of Go `strings.TrimSpace`). -/
def trimLeft (s : List Char) : List Char := s.dropWhile goIsSpace

/-- Trailing-whitespace removal (right half of Go `strings.TrimSpace`). -/
def trimRight (s : List Char) : List Char := (s.reverse.dropWhile goIsSpace).reverse

/-- Go `strings.TrimSpace`. -/
def trimSpace (s : List Char) : List Char := trimRight (trimLeft s)

/-- Go `strings.HasPrefix s pre`. -/
def goHasPrefix (s pre : List Char) : Bool := pre.isPrefixOf s

/-- Go `strings.HasSuffix s suf`. -/
def goHasSuffix (s suf : List Char) : Bool := suf.isSuffixOf s

/-- Go `strings.TrimSuffix s suf`: drop `suf` from the end when present. -/
def goTrimSuffix (s suf : List Char) : List Char :=
  if goHasSuffix s suf then s.take (s.length - suf.length) else s

/-- Go `strings.Contains s pat`: `pat` occurs contiguously in `s`. -/
def goContains (s pat : List Char) : Bool := decide (pat <:+: s)

/-- Go `strings.Split s "\n"`. -/
def splitLines : List Char → List (List Char)
  | [] => [[]]
  | c :: rest =>
    match splitLines rest with
    | [] => [[c]]
    | l :: ls => if c = '\n' then [] :: l :: ls else (c :: l) :: ls

/-- Go `strings.Join lines "\n"`. -/
def joinLines : List (List Char) → List Char
  | [] => []
  | l :: ls =>
    match ls with
    | [] => l
    | _ :: _ => l ++ '\n' :: joinLines ls

/-- Go `strings.ToLower`, modelled as per-character lowering (the inputs the
program compares against are ASCII). -/
def goToLower (s : List Char) : List Char := s.map Char.toLower

/-- Go `strings.Fields`: split around runs of whitespace, no empty fields.
`cur` is the reversed accumulator of the field being built. -/
def goFieldsAux (cur : List Char) : List Char → List (List Char)
  | [] => if cur.isEmpty then [] else [cur.reverse]
  | c :: rest =>
    if goIsSpace c then
      if cur.isEmpty then goFieldsAux [] rest
      else cur.reverse :: goFieldsAux [] rest
    else goFieldsAux (c :: cur) rest

/-- Go `strings.Fields`. -/
def goFields (s : List Char) : List (List Char) := goFieldsAux [] s

/-- Leading decimal digits of a token, as a number; `none` when the token does
not start with a digit. -/
def parseDigits (s : List Char) : Option Nat :=
  let ds := s.takeWhile Char.isDigit
  if ds.isEmpty then none
  else some (ds.foldl (fun a c => a * 10 + (c.toNat - 48)) 0)

/-- Go `fmt.Sscanf(tok, "%d", &num)`: an optional sign followed by at least
one digit; trailing characters are left unconsumed and do not cause an
error. -/
def parseIntTok : List Char → Option Int
  | '-' :: rest => (parseDigits rest).map (fun n => -(n : Int))
  | '+' :: rest => (parseDigits rest).map (fun n => (n : Int))
  | s => (parseDigits s).map (fun n => (n : Int))

/-! ## Response extractor (`extractCommitMessage`, main.go lines 453-497) -/

/-- The `conventionalTypes` slice of `extractCommitMessage`. -/
def conventionalTypes : List (List Char) :=
  ["feat".data, "fix".data, "docs".data, "style".data, "refactor".data,
   "perf".data, "test".data, "build".data, "ci".data, "chore".data,
   "revert".data]

/-- One iteration of the inner loop of `extractCommitMessage`: does the
trimmed line start with `typ+"("`, `typ+":"` or `typ+"!"`? -/
def matchesType (trimmed typ : List Char) : Bool :=
  goHasPrefix trimmed (typ ++ "(".data) ||
  goHasPrefix trimmed (typ ++ ":".data) ||
  goHasPrefix trimmed (typ ++ "!".data)

/-- A line whose trimmed form starts with a recognized conventional-commit
type token followed by `(`, `:` or `!`. -/
def isHeaderLine (line : List Char) : Bool :=
  conventionalTypes.any (fun typ => matchesType (trimSpace line) typ)

/-- The `startIndex` scan of `extractCommitMessage`: index of the first
header line, `none` when there is no such line. -/
def findHeaderIdx : List (List Char) → Option Nat
  | [] => none
  | l :: ls => if isHeaderLine l then some 0 else (findHeaderIdx ls).map (· + 1)

/-- The extraction loop of `extractCommitMessage`: keep lines until the first
line whose trimmed content is exactly a triple-backtick fence. -/
def takeUntilFence : List (List Char) → List (List Char)
  | [] => []
  | l :: ls => if trimSpace l = "```".data then [] else l :: takeUntilFence ls

/-- The literal `---` separator. -/
def dashes : List Char := "---".data

/-- Fuel-indexed version of the trailing-`---` strip loop of
`extractCommitMessage`.  Each iteration removes at least the three suffix
characters, so fuel equal to the initial length always suffices. -/
def stripDashesAux : Nat → List Char → List Char
  | 0, s => s
  | fuel + 1, s =>
    if goHasSuffix s dashes then stripDashesAux fuel (trimSpace (goTrimSuffix s dashes))
    else s

/-- The trailing-`---` strip loop of `extractCommitMessage` (lines 491-494):
while the string ends in `---`, drop that suffix and re-trim. -/
def stripTrailingDashes (s : List Char) : List Char := stripDashesAux s.length s

/-- `extractCommitMessage` (main.go lines 453-497). -/
def extractCommitMessage (raw : List Char) : List Char :=
  let lines := splitLines raw
  match findHeaderIdx lines with
  | none => raw
  | some i =>
      stripTrailingDashes (trimSpace (joinLines (takeUntilFence (lines.drop i))))

/-! ## AI executor output filtering (`ClaudeExecutor.Execute` lines 40-62,
`GeminiExecutor.Execute` lines 68-89)

Only the pure post-processing of a successful command output is modelled; a
failed command returns an error and no string. -/

/-- The line filter and trim applied by `ClaudeExecutor.Execute` to the raw
command output. -/
def claudeFilterOutput (output : List Char) : List Char :=
  trimSpace (joinLines ((splitLines output).filter (fun line =>
    !goContains line "🤖 Generated with".data &&
    !goContains line "Co-Authored-By: Claude".data)))

/-- The line filter and trim applied by `GeminiExecutor.Execute` to the raw
command output. -/
def geminiFilterOutput (output : List Char) : List Char :=
  trimSpace (joinLines ((splitLines output).filter (fun line =>
    !goContains line "Loaded cached credentials.".data)))

/-! ## Cancellation signal

The process-wide context is modelled by the iteration index at which the
signal fires: `ctxDone (some n) i` is true from iteration `n` onward,
`ctxDone none i` never.  Loops that poll the context pass their iteration
counter. -/

/-- Whether the shared cancellation signal has fired by iteration `i`. -/
def ctxDone : Option Nat → Nat → Bool
  | none, _ => false
  | some n, i => n ≤ i

/-! ## Confirmation loop (main.go lines 347-451)

One `LoopStep` per iteration of the interactive loop: the raw input line
(without its trailing newline) together with the outcomes of the external
collaborators that may be consulted this iteration — the editor (`none` =
editor failed, `some c` = the temporary file's content after editing) and
the backend commit command. -/

structure LoopStep where
  input : List Char
  /-- Result of `editMessageInEditor` when this iteration chooses `e`:
  `none` models an editor error, `some c` the edited file content (the
  function itself returns `trimSpace c`). -/
  editFile : Option (List Char)
  /-- Whether the backend commit succeeds when this iteration chooses `y`. -/
  commitOk : Bool
deriving DecidableEq

/-- Observable calls to the backend commit function. -/
inductive Event where
  | commitCall (msg : List Char)
deriving DecidableEq

/-- How the run ends.  `canceledZero` is the `os.Exit(0)` of the `n`/`no`/
empty branch; `commitFailedExit` and `readFailedExit` are the `os.Exit(1)`
paths; `committed` is the normal return after a successful commit. -/
inductive Outcome where
  | committed
  | commitFailedExit
  | canceledZero
  | readFailedExit
deriving DecidableEq

/-- The interactive confirmation loop (main.go lines 388-450).  Consumes one
`LoopStep` per iteration; an exhausted script models an input read failure.
Returns the backend commit calls made, in order, and the way the loop
ended. -/
def confirmLoop : List Char → List LoopStep → List Event × Outcome
  | _, [] => ([], .readFailedExit)
  | msg, step :: rest =>
    let response := goToLower (trimSpace step.input)
    if response = "y".data ∨ response = "yes".data then
      ([.commitCall msg], if step.commitOk then .committed else .commitFailedExit)
    else if response = "e".data ∨ response = "edit".data then
      match step.editFile with
      | none => confirmLoop msg rest
      | some content =>
        let edited := trimSpace content
        if edited = [] then confirmLoop msg rest
        else confirmLoop edited rest
    else if response = "n".data ∨ response = "no".data ∨ response = [] then
      ([], .canceledZero)
    else
      confirmLoop msg rest

/-- The AI-error-response heuristic of main (lines 354-357). -/
def looksLikeAIError (msg : List Char) : Bool :=
  goContains (goToLower msg) "execution error".data ||
  goContains (goToLower msg) "error:".data ||
  goContains (goToLower msg) "failed".data

/-- End of an entire confirmation-flow run: either an abort before any
confirmation, or the events and outcome of the commit path. -/
inductive FlowResult where
  | emptyMessageExit
  | aiErrorExit
  | ran (events : List Event) (outcome : Outcome)
deriving DecidableEq

/-- The events of a `FlowResult`. -/
def FlowResult.events : FlowResult → List Event
  | .ran evs _ => evs
  | _ => []

/-- The confirmation flow of main from the empty-message guard onward
(lines 347-451): guard against an empty or error-looking generated message,
then either auto-confirm (commit immediately, lines 368-385) or run the
interactive loop. -/
def mainConfirmFlow (autoConfirm : Bool) (commitMessage : List Char)
    (autoCommitOk : Bool) (steps : List LoopStep) : FlowResult :=
  if commitMessage = [] then .emptyMessageExit
  else if looksLikeAIError commitMessage then .aiErrorExit
  else if autoConfirm then
    .ran [.commitCall commitMessage]
      (if autoCommitOk then .committed else .commitFailedExit)
  else
    match confirmLoop commitMessage steps with
    | (evs, outcome) => .ran evs outcome

/-! ## File selector (`selectJJFiles`, main.go lines 820-913) -/

/-- A file entry from `jj diff --summary`. -/
structure JJFileEntry where
  status : List Char
  path : List Char
deriving DecidableEq

/-- The token loop of `selectJJFiles`: parse each whitespace-separated token
with `Sscanf "%d"`; invalid or out-of-range tokens are reported and skipped;
a valid 1-based index toggles its mask bit. -/
def applyToggles (n : Nat) (sel : List Bool) (toks : List (List Char)) : List Bool :=
  toks.foldl (fun sel tok =>
    match parseIntTok tok with
    | none => sel
    | some num =>
      if num < 1 ∨ (n : Int) < num then sel
      else sel.set (num.toNat - 1) (!sel.getD (num.toNat - 1) false)) sel

/-- The interactive loop of `selectJJFiles`.  `i` counts iterations for the
cancellation signal, which the loop polls at the top of each iteration;
`inputs` is the script of input lines; an exhausted script models a read
failure.  `none` = the function returned an error. -/
def selectLoop (entries : List JJFileEntry) (cancelAt : Option Nat) :
    Nat → List Bool → List (List Char) → Option (List JJFileEntry)
  | _, _, [] => none
  | i, sel, input :: rest =>
    if ctxDone cancelAt i then none
    else
      let input := trimSpace input
      if input = [] then
        if sel.any id then
          some ((entries.zip sel).filterMap (fun p => if p.2 then some p.1 else none))
        else selectLoop entries cancelAt (i + 1) sel rest
      else if input = "a".data then
        selectLoop entries cancelAt (i + 1) (sel.map (fun _ => true)) rest
      else if input = "n".data then
        selectLoop entries cancelAt (i + 1) (sel.map (fun _ => false)) rest
      else
        selectLoop entries cancelAt (i + 1) (applyToggles entries.length sel (goFields input)) rest

/-- `selectJJFiles` (main.go lines 820-913): all entries start selected. -/
def selectJJFiles (entries : List JJFileEntry) (cancelAt : Option Nat)
    (inputs : List (List Char)) : Option (List JJFileEntry) :=
  selectLoop entries cancelAt 0 (entries.map (fun _ => true)) inputs

/-! ## Partial commit (`jjPartialCommit`, main.go lines 957-1068)

The working copy is a map from paths to file contents; `none` means the file
does not exist on disk.  `os.WriteFile` and `os.Remove` always succeed in
this model (the map is total); the external `jj restore` and `jj commit`
commands are oracles: `jj restore` on success sets each named path to its
parent-revision content, and `jj commit` does not change on-disk file
contents.  A failed `jj restore` is modelled as leaving the tree unchanged;
no claim depends on that branch. -/

abbrev Path := List Char

abbrev FS := Path → Option (List Char)

/-- The `savedFile` record of `jjPartialCommit`. -/
structure SavedFile where
  path : Path
  content : List Char
  deleted : Bool
deriving DecidableEq

/-- Errors `jjPartialCommit` can return. -/
inductive PCError where
  | readFailed (p : Path)
  | restoreFailed
  | commitFailed
  | canceled
deriving DecidableEq

/-- Result of a `jjPartialCommit` run: the final working copy, the error (if
any), and the paths printed by the interrupted-restoration message. -/
structure PCOutcome where
  fs : FS
  err : Option PCError
  printed : List Path

/-- Step 1 of `jjPartialCommit` (lines 977-1004): save each excluded file's
disposition, failing on the first unreadable non-deleted file. -/
def buildSaved (fs : FS) : List JJFileEntry → Except Path (List SavedFile)
  | [] => .ok []
  | e :: rest =>
    if e.status = "D".data then
      (buildSaved fs rest).map (fun s => ⟨e.path, [], true⟩ :: s)
    else
      match fs e.path with
      | none => .error e.path
      | some c => (buildSaved fs rest).map (fun s => ⟨e.path, c, false⟩ :: s)

/-- The excluded entries (lines 958-970): all entries whose path is not
selected. -/
def excludedOf (selectedPaths : List Path) (allEntries : List JJFileEntry) :
    List JJFileEntry :=
  allEntries.filter (fun e => decide (e.path ∉ selectedPaths))

/-- Re-apply one saved disposition: re-delete or rewrite the saved bytes. -/
def applySaved (fs : FS) (sf : SavedFile) : FS :=
  fun p => if p = sf.path then (if sf.deleted then none else some sf.content) else fs p

/-- Re-apply a list of saved dispositions in order (the rollback loop of
lines 1024-1036, which polls no cancellation signal). -/
def applyAll (fs : FS) : List SavedFile → FS
  | [] => fs
  | sf :: rest => applyAll (applySaved fs sf) rest

/-- Successful `jj restore` over the excluded paths (lines 1012-1018). -/
def jjRestore (parentFS fs : FS) (paths : List Path) : FS :=
  fun p => if p ∈ paths then parentFS p else fs p

/-- Step 4 of `jjPartialCommit` (lines 1041-1065): restore each saved file in
order, checking the cancellation signal before each per-file restoration; on
cancellation print the paths of every entry of `savedFiles` and return the
context's error. -/
def finalRestore (cancelAt : Option Nat) (allSaved : List SavedFile) :
    Nat → FS → List SavedFile → FS × Option PCError × List Path
  | _, fs, [] => (fs, none, [])
  | i, fs, sf :: rest =>
    if ctxDone cancelAt i then
      (fs, some .canceled, allSaved.map (fun f => f.path))
    else finalRestore cancelAt allSaved (i + 1) (applySaved fs sf) rest

/-- Steps 2-4 of `jjPartialCommit` once the excluded files' dispositions
have been saved: run the (successful) `jj restore`, then `jj commit`; on
commit success restore each saved file with the cancellation-polling loop;
on commit failure roll back every saved disposition (best effort, no signal
polling) and propagate the commit error. -/
def jjPartialCommitSaved (parentFS fs : FS) (commitOk : Bool) (cancelAt : Option Nat)
    (excludedPaths : List Path) (savedFiles : List SavedFile) : PCOutcome :=
  let fs₁ := jjRestore parentFS fs excludedPaths
  if commitOk then
    match finalRestore cancelAt savedFiles 0 fs₁ savedFiles with
    | (fs₂, err, printed) => ⟨fs₂, err, printed⟩
  else
    ⟨applyAll fs₁ savedFiles, some .commitFailed, []⟩

/-- `jjPartialCommit` (main.go lines 957-1068).  `restoreOk` and `commitOk`
are the outcomes of the external `jj restore` and `jj commit` commands;
`cancelAt` is the iteration of the final restoration loop at which the
cancellation signal fires, if ever. -/
def jjPartialCommit (parentFS : FS) (restoreOk commitOk : Bool)
    (cancelAt : Option Nat) (fs : FS) (selectedPaths : List Path)
    (allEntries : List JJFileEntry) : PCOutcome :=
  let excluded := excludedOf selectedPaths allEntries
  if excluded.isEmpty then
    -- no excluded files: plain `jj commit`
    ⟨fs, if commitOk then none else some .commitFailed, []⟩
  else
    match buildSaved fs excluded with
    | .error p => ⟨fs, some (.readFailed p), []⟩
    | .ok savedFiles =>
      if restoreOk then
        jjPartialCommitSaved parentFS fs commitOk cancelAt
          (excluded.map (fun e => e.path)) savedFiles
      else
        ⟨fs, some .restoreFailed, []⟩

/-! ## Generic lemmas about the string primitives -/

theorem dropWhile_head_false {α} {p : α → Bool} {l : List α} {c : α} {t : List α}
    (h : l.dropWhile p = c :: t) : p c = false := by
  induction l with
  | nil => simp at h
  | cons a l ih =>
    by_cases hp : p a
    · rw [List.dropWhile_cons_of_pos hp] at h; exact ih h
    · rw [List.dropWhile_cons_of_neg hp] at h
      injection h with h1 _
      subst h1
      simpa using hp

theorem dropWhile_dropWhile {α} (p : α → Bool) (l : List α) :
    (l.dropWhile p).dropWhile p = l.dropWhile p := by
  cases h : l.dropWhile p with
  | nil => simp
  | cons c t =>
    rw [List.dropWhile_cons_of_neg (by simp [dropWhile_head_false h])]

theorem trimRight_prefixOf (s : List Char) : trimRight s <+: s := by
  have h0 : s.reverse.dropWhile goIsSpace <:+ s.reverse := List.dropWhile_suffix goIsSpace
  simpa [trimRight] using h0.reverse

theorem trimRight_trimRight (s : List Char) : trimRight (trimRight s) = trimRight s := by
  simp [trimRight, List.reverse_reverse, dropWhile_dropWhile]

theorem trimLeft_of_trimRight_trimLeft (s : List Char) :
    trimLeft (trimRight (trimLeft s)) = trimRight (trimLeft s) := by
  cases h : trimRight (trimLeft s) with
  | nil => simp [trimLeft]
  | cons c t =>
    have hpre : (c :: t) <+: trimLeft s := h ▸ trimRight_prefixOf (trimLeft s)
    obtain ⟨u, hu⟩ := hpre
    have h' : s.dropWhile goIsSpace = c :: (t ++ u) := by
      rw [trimLeft] at hu; rw [← hu]; rfl
    have hc := dropWhile_head_false h'
    show trimLeft (c :: t) = c :: t
    simp [trimLeft, hc]

theorem trimSpace_trimSpace (s : List Char) : trimSpace (trimSpace s) = trimSpace s := by
  show trimRight (trimLeft (trimRight (trimLeft s))) = trimRight (trimLeft s)
  rw [trimLeft_of_trimRight_trimLeft, trimRight_trimRight]

theorem trimLeft_length_le (s : List Char) : (trimLeft s).length ≤ s.length :=
  (List.dropWhile_suffix goIsSpace).length_le

theorem trimRight_length_le (s : List Char) : (trimRight s).length ≤ s.length :=
  (trimRight_prefixOf s).length_le

theorem trimSpace_length_le (s : List Char) : (trimSpace s).length ≤ s.length :=
  le_trans (trimRight_length_le _) (trimLeft_length_le _)

/-! ## The trailing-`---` strip loop -/

theorem goHasSuffix_three_le {s : List Char} (h : goHasSuffix s dashes = true) :
    3 ≤ s.length := by
  rw [goHasSuffix, List.isSuffixOf_iff_suffix] at h
  simpa [dashes] using h.length_le

theorem strip_step_length {s : List Char} (h : goHasSuffix s dashes = true) :
    (trimSpace (goTrimSuffix s dashes)).length + 3 ≤ s.length := by
  have h3 : 3 ≤ s.length := goHasSuffix_three_le h
  have hlen : (goTrimSuffix s dashes).length = s.length - 3 := by
    rw [goTrimSuffix, if_pos h]
    simp [dashes]
  have := trimSpace_length_le (goTrimSuffix s dashes)
  omega

theorem stripDashesAux_congr :
    ∀ f₁ (s : List Char), s.length ≤ f₁ → ∀ f₂, s.length ≤ f₂ →
      stripDashesAux f₁ s = stripDashesAux f₂ s := by
  intro f₁
  induction f₁ with
  | zero =>
    intro s hs f₂ _
    have hnil : s = [] := List.eq_nil_of_length_eq_zero (Nat.le_zero.mp hs)
    subst hnil
    cases f₂ with
    | zero => rfl
    | succ k => simp [stripDashesAux, show goHasSuffix [] dashes = false by decide]
  | succ f₁ ih =>
    intro s hs f₂ h₂
    by_cases hsuf : goHasSuffix s dashes
    · have h3 : 3 ≤ s.length := goHasSuffix_three_le hsuf
      have hstep := strip_step_length hsuf
      cases f₂ with
      | zero => omega
      | succ k =>
        simp only [stripDashesAux, if_pos hsuf]
        exact ih _ (by omega) k (by omega)
    · cases f₂ with
      | zero =>
        have hnil : s = [] := List.eq_nil_of_length_eq_zero (Nat.le_zero.mp h₂)
        subst hnil
        simp [stripDashesAux, show goHasSuffix [] dashes = false by decide]
      | succ k => simp only [stripDashesAux, if_neg hsuf]

theorem stripTrailingDashes_eq (s : List Char) :
    stripTrailingDashes s =
      if goHasSuffix s dashes then stripTrailingDashes (trimSpace (goTrimSuffix s dashes))
      else s := by
  by_cases h : goHasSuffix s dashes
  · rw [if_pos h]
    have h3 : 3 ≤ s.length := goHasSuffix_three_le h
    have hstep := strip_step_length h
    obtain ⟨k, hk⟩ : ∃ k, s.length = k + 1 := ⟨s.length - 1, by omega⟩
    show stripDashesAux s.length s = _
    rw [hk]
    simp only [stripDashesAux, if_pos h]
    exact stripDashesAux_congr k _ (by omega) _ le_rfl
  · rw [if_neg h]
    show stripDashesAux s.length s = s
    cases hl : s.length with
    | zero => rfl
    | succ k => simp only [stripDashesAux, if_neg h]

theorem stripTrailingDashes_no_suffix_aux :
    ∀ n (s : List Char), s.length ≤ n →
      goHasSuffix (stripTrailingDashes s) dashes = false := by
  intro n
  induction n with
  | zero =>
    intro s hs
    have hnil : s = [] := List.eq_nil_of_length_eq_zero (Nat.le_zero.mp hs)
    subst hnil
    decide
  | succ n ih =>
    intro s hs
    rw [stripTrailingDashes_eq]
    by_cases hsuf : goHasSuffix s dashes
    · rw [if_pos hsuf]
      exact ih _ (by have := strip_step_length hsuf; omega)
    · rw [if_neg hsuf]; simpa using hsuf

theorem stripTrailingDashes_no_suffix (s : List Char) :
    goHasSuffix (stripTrailingDashes s) dashes = false :=
  stripTrailingDashes_no_suffix_aux s.length s le_rfl

theorem stripTrailingDashes_trimmed_aux :
    ∀ n (s : List Char), s.length ≤ n → trimSpace s = s →
      trimSpace (stripTrailingDashes s) = stripTrailingDashes s := by
  intro n
  induction n with
  | zero =>
    intro s hs _
    have hnil : s = [] := List.eq_nil_of_length_eq_zero (Nat.le_zero.mp hs)
    subst hnil
    decide
  | succ n ih =>
    intro s hs ht
    rw [stripTrailingDashes_eq]
    by_cases hsuf : goHasSuffix s dashes
    · rw [if_pos hsuf]
      exact ih _ (by have := strip_step_length hsuf; omega) (trimSpace_trimSpace _)
    · rw [if_neg hsuf]; exact ht

theorem stripTrailingDashes_trimmed {s : List Char} (h : trimSpace s = s) :
    trimSpace (stripTrailingDashes s) = stripTrailingDashes s :=
  stripTrailingDashes_trimmed_aux s.length s le_rfl h

/-! ## Claim theorems: response extractor -/

/-- C5: for every raw input containing a line whose trimmed form starts with
a recognized type token followed by `(`, `:` or `!`, extraction returns the
lines from the first such line onward, truncated at the first line trimming
to a triple-backtick fence, trimmed, with trailing `---` separators removed;
in particular the spec's concrete example extracts as stated. -/
theorem claim_C5 :
    (∀ (x : List Char) (i : Nat), findHeaderIdx (splitLines x) = some i →
      extractCommitMessage x =
        stripTrailingDashes (trimSpace (joinLines (takeUntilFence ((splitLines x).drop i))))) ∧
    extractCommitMessage "feat(ui): add button\n\n- detail\n```\ntrailing AI chatter".data =
      "feat(ui): add button\n\n- detail".data := by
  constructor
  · intro x i h
    simp [extractCommitMessage, h]
  · decide

/-- Witness for C5 at a concrete input with preamble and trailing noise. -/
theorem claim_C5_witness :
    extractCommitMessage "noise\nfix: y\n---".data =
      stripTrailingDashes (trimSpace (joinLines (takeUntilFence
        ((splitLines "noise\nfix: y\n---".data).drop 1)))) :=
  claim_C5.1 "noise\nfix: y\n---".data 1 (by decide)

theorem findHeaderIdx_none :
    ∀ ls : List (List Char), (∀ l ∈ ls, isHeaderLine l = false) → findHeaderIdx ls = none := by
  intro ls
  induction ls with
  | nil => intro _; rfl
  | cons l ls ih =>
    intro h
    rw [findHeaderIdx, if_neg (by simp [h l (by simp)]),
      ih (fun l' hl' => h l' (by simp [hl'])), Option.map_none']

/-- C6: an input with no recognized conventional-commit header line is
returned byte-for-byte unchanged. -/
theorem claim_C6 (x : List Char) (h : ∀ l ∈ splitLines x, isHeaderLine l = false) :
    extractCommitMessage x = x := by
  have hnone : findHeaderIdx (splitLines x) = none := findHeaderIdx_none _ h
  simp [extractCommitMessage, hnone]

/-- Witness for C6 at the spec's concrete fallback example. -/
theorem claim_C6_witness :
    extractCommitMessage "random commentary only, no structured line".data =
      "random commentary only, no structured line".data :=
  claim_C6 "random commentary only, no structured line".data (by decide)

/-- C7 fails as stated: the strip loop removes the literal string suffix
`---` even when the final line contains other text before it, so the final
line `feat: x---` is not kept intact. -/
theorem claim_C7_cex :
    extractCommitMessage "feat: x---".data = "feat: x".data ∧
    "feat: x".data ≠ "feat: x---".data := by decide

/-- C7 amended: in step 4, after trimming, the literal suffix `---` is
repeatedly stripped (with re-trimming) until the result no longer ends in
`---`, regardless of line boundaries; a string with no `---` suffix is left
unchanged. -/
theorem claim_C7 (s : List Char) :
    goHasSuffix (stripTrailingDashes s) dashes = false ∧
    (goHasSuffix s dashes = true →
      stripTrailingDashes s = stripTrailingDashes (trimSpace (goTrimSuffix s dashes))) ∧
    (goHasSuffix s dashes = false → stripTrailingDashes s = s) := by
  refine ⟨stripTrailingDashes_no_suffix s, fun h => ?_, fun h => ?_⟩
  · rw [stripTrailingDashes_eq, if_pos h]
  · rw [stripTrailingDashes_eq, if_neg (by simp [h])]

/-- Witness for C7 (amended) at concrete inputs exercising both branches. -/
theorem claim_C7_witness :
    goHasSuffix (stripTrailingDashes "a---".data) dashes = false ∧
    stripTrailingDashes "a---".data =
      stripTrailingDashes (trimSpace (goTrimSuffix "a---".data dashes)) ∧
    stripTrailingDashes "a".data = "a".data :=
  ⟨(claim_C7 "a---".data).1, (claim_C7 "a---".data).2.1 (by decide),
    (claim_C7 "a".data).2.2 (by decide)⟩

/-- C4 fails as stated: extraction is not idempotent.  On
`"feat: x\n```---"` the first extraction keeps the `"```---"` line (its
trimmed form is not exactly a fence) and then the trailing-`---` strip turns
it into a bare fence line, which the second extraction removes. -/
theorem claim_C4_cex :
    extractCommitMessage (extractCommitMessage "feat: x\n```---".data) ≠
      extractCommitMessage "feat: x\n```---".data := by decide

/-! ## Split/join structure lemmas -/

theorem splitLines_ne_nil (s : List Char) : splitLines s ≠ [] := by
  cases s with
  | nil => simp [splitLines]
  | cons c rest =>
    rw [splitLines]
    cases h : splitLines rest with
    | nil => simp
    | cons l ls =>
      by_cases hc : c = '\n' <;> simp [hc]

theorem joinLines_cons_eq (l : List Char) (ls : List (List Char)) :
    joinLines (l :: ls) = l ++ (match ls with | [] => [] | _ :: _ => '\n' :: joinLines ls) := by
  cases ls <;> simp [joinLines]

theorem splitLines_cons_pos (rest : List Char) {l : List Char} {ls : List (List Char)}
    (h : splitLines rest = l :: ls) : splitLines ('\n' :: rest) = [] :: l :: ls := by
  rw [splitLines, h]
  show (if ('\n' : Char) = '\n' then [] :: l :: ls else ('\n' :: l) :: ls) = [] :: l :: ls
  rw [if_pos rfl]

theorem splitLines_cons_neg {c : Char} (rest : List Char) {l : List Char}
    {ls : List (List Char)} (hc : c ≠ '\n') (h : splitLines rest = l :: ls) :
    splitLines (c :: rest) = (c :: l) :: ls := by
  rw [splitLines, h]
  show (if c = '\n' then [] :: l :: ls else (c :: l) :: ls) = (c :: l) :: ls
  rw [if_neg hc]

theorem joinLines_splitLines (s : List Char) : joinLines (splitLines s) = s := by
  induction s with
  | nil => rfl
  | cons c rest ih =>
    cases h : splitLines rest with
    | nil => exact absurd h (splitLines_ne_nil rest)
    | cons l ls =>
      rw [h] at ih
      by_cases hc : c = '\n'
      · subst hc
        rw [splitLines_cons_pos rest h, joinLines_cons_eq]
        show [] ++ ('\n' :: joinLines (l :: ls)) = '\n' :: rest
        rw [List.nil_append, ih]
      · rw [splitLines_cons_neg rest hc h, joinLines_cons_eq, List.cons_append,
          ← joinLines_cons_eq, ih]

theorem splitLines_head_eq (s : List Char) :
    ∃ r, splitLines s = s.takeWhile (fun ch => ch != '\n') :: r := by
  induction s with
  | nil => exact ⟨[], rfl⟩
  | cons c rest ih =>
    obtain ⟨r, hr⟩ := ih
    by_cases hc : c = '\n'
    · subst hc
      refine ⟨List.takeWhile (fun ch => ch != '\n') rest :: r, ?_⟩
      rw [splitLines_cons_pos rest hr]
      have ht : List.takeWhile (fun ch => ch != '\n') ('\n' :: rest) = [] := by
        simp [List.takeWhile_cons]
      rw [ht]
    · refine ⟨r, ?_⟩
      rw [splitLines_cons_neg rest hc hr]
      have ht : List.takeWhile (fun ch => ch != '\n') (c :: rest) =
          c :: List.takeWhile (fun ch => ch != '\n') rest := by
        simp [List.takeWhile_cons, hc]
      rw [ht]

theorem takeUntilFence_eq_self {ls : List (List Char)}
    (h : ∀ l ∈ ls, trimSpace l ≠ "```".data) : takeUntilFence ls = ls := by
  induction ls with
  | nil => rfl
  | cons l ls ih =>
    rw [takeUntilFence, if_neg (h l (by simp))]
    rw [ih (fun l' hl' => h l' (by simp [hl']))]

theorem findHeaderIdx_some_drop :
    ∀ (ls : List (List Char)) (i : Nat), findHeaderIdx ls = some i →
      ∃ l rest, ls.drop i = l :: rest ∧ isHeaderLine l = true := by
  intro ls
  induction ls with
  | nil => intro i h; simp [findHeaderIdx] at h
  | cons l ls ih =>
    intro i h
    rw [findHeaderIdx] at h
    by_cases hl : isHeaderLine l
    · rw [if_pos hl] at h
      injection h with h
      subst h
      exact ⟨l, ls, rfl, hl⟩
    · rw [if_neg hl] at h
      cases hfi : findHeaderIdx ls with
      | none => rw [hfi] at h; simp at h
      | some j =>
        rw [hfi] at h
        simp only [Option.map_some'] at h
        injection h with h
        subst h
        simpa using ih j hfi

theorem findHeaderIdx_cons_pos {l : List Char} {ls : List (List Char)}
    (h : isHeaderLine l = true) : findHeaderIdx (l :: ls) = some 0 := by
  rw [findHeaderIdx, if_pos h]

/-! ## Header-line structure -/

/-- The delimiters accepted after a type token. -/
def delims : List Char := "(:!".data

theorem isHeaderLine_elim {l : List Char} (h : isHeaderLine l = true) :
    ∃ typ ∈ conventionalTypes, ∃ d ∈ delims, (typ ++ [d]) <+: trimSpace l := by
  rw [isHeaderLine, List.any_eq_true] at h
  obtain ⟨typ, htyp, hm⟩ := h
  rw [matchesType] at hm
  simp only [Bool.or_eq_true, goHasPrefix, List.isPrefixOf_iff_prefix] at hm
  refine ⟨typ, htyp, ?_⟩
  rcases hm with (h | h) | h
  · exact ⟨'(', by decide, h⟩
  · exact ⟨':', by decide, h⟩
  · exact ⟨'!', by decide, h⟩

theorem isHeaderLine_intro {l typ : List Char} {d : Char}
    (htyp : typ ∈ conventionalTypes) (hd : d ∈ delims)
    (h : (typ ++ [d]) <+: trimSpace l) : isHeaderLine l = true := by
  rw [isHeaderLine, List.any_eq_true]
  refine ⟨typ, htyp, ?_⟩
  rw [matchesType]
  simp only [Bool.or_eq_true, goHasPrefix, List.isPrefixOf_iff_prefix]
  fin_cases hd
  · exact Or.inl (Or.inl h)
  · exact Or.inl (Or.inr h)
  · exact Or.inr h

theorem types_facts : ∀ t ∈ conventionalTypes,
    t ≠ [] ∧ goIsSpace (t.headD ' ') = false ∧ t.headD ' ' ∉ "```".data ∧
    '\n' ∉ t := by decide

theorem delims_facts : ∀ d ∈ delims,
    goIsSpace d = false ∧ d ≠ '-' ∧ d ≠ '\n' := by decide

theorem dashes_all : ∀ c ∈ dashes, c = '-' := by decide

/-! ## Prefix preservation through trimming and stripping -/

theorem trimLeft_trimLeft (s : List Char) : trimLeft (trimLeft s) = trimLeft s :=
  dropWhile_dropWhile goIsSpace s

theorem trimSpace_trimLeft (s : List Char) : trimSpace (trimLeft s) = trimSpace s := by
  show trimRight (trimLeft (trimLeft s)) = trimRight (trimLeft s)
  rw [trimLeft_trimLeft]

theorem takeWhile_pres_prefixOf {p s : List Char} {q : Char → Bool}
    (h : p <+: s) (hall : ∀ c ∈ p, q c = true) : p <+: s.takeWhile q := by
  induction p generalizing s with
  | nil => exact ⟨_, rfl⟩
  | cons a p ih =>
    obtain ⟨t, ht⟩ := h
    subst ht
    rw [List.cons_append, List.takeWhile_cons, if_pos (hall a (by simp))]
    rw [List.cons_prefix_cons]
    exact ⟨rfl, ih ⟨t, rfl⟩ (fun c hc => hall c (by simp [hc]))⟩

theorem trimRight_decomp (s : List Char) :
    ∃ w, s = trimRight s ++ w ∧ ∀ c ∈ w, goIsSpace c = true := by
  refine ⟨(s.reverse.takeWhile goIsSpace).reverse, ?_, ?_⟩
  · have h : s.reverse.takeWhile goIsSpace ++ s.reverse.dropWhile goIsSpace = s.reverse :=
      List.takeWhile_append_dropWhile goIsSpace s.reverse
    have h2 := congrArg List.reverse h
    rw [List.reverse_append, List.reverse_reverse] at h2
    exact h2.symm
  · intro c hc
    rw [List.mem_reverse] at hc
    exact List.mem_takeWhile_imp hc

theorem trimRight_append_cases (u v : List Char) :
    trimRight (u ++ v) = if trimRight v = [] then trimRight u else u ++ trimRight v := by
  have key : trimRight (u ++ v) = (List.dropWhile goIsSpace (v.reverse ++ u.reverse)).reverse := by
    rw [trimRight, List.reverse_append]
  by_cases h : trimRight v = []
  · have hv : v.reverse.dropWhile goIsSpace = [] := by
      have h2 := congrArg List.reverse h
      rw [trimRight, List.reverse_reverse] at h2
      simpa using h2
    rw [if_pos h, key, List.dropWhile_append, hv]
    rfl
  · rw [if_neg h, key, List.dropWhile_append]
    cases hE : (v.reverse.dropWhile goIsSpace).isEmpty with
    | true =>
      refine absurd ?_ h
      rw [trimRight, List.isEmpty_iff.mp hE]
      rfl
    | false =>
      show (List.dropWhile goIsSpace v.reverse ++ u.reverse).reverse = u ++ trimRight v
      rw [List.reverse_append, List.reverse_reverse, trimRight]

theorem trimRight_eq_self_of_last {p : List Char} (hne : p ≠ [])
    (hlast : goIsSpace (p.getLast hne) = false) : trimRight p = p := by
  cases hrev : p.reverse with
  | nil =>
    rw [List.reverse_eq_nil_iff] at hrev
    exact absurd hrev hne
  | cons c t =>
    have hp : p = t.reverse ++ [c] := by
      have h2 := congrArg List.reverse hrev
      rw [List.reverse_reverse] at h2
      simpa using h2
    subst hp
    have hcg : (t.reverse ++ [c]).getLast hne = c := List.getLast_concat t.reverse
    rw [hcg] at hlast
    rw [trimRight, hrev, List.dropWhile_cons_of_neg (by simp [hlast]), ← hrev,
      List.reverse_reverse]

theorem prefixOf_trimRight {p s : List Char} (h : p <+: s) (hne : p ≠ [])
    (hlast : goIsSpace (p.getLast hne) = false) : p <+: trimRight s := by
  obtain ⟨q, hq⟩ := h
  subst hq
  rw [trimRight_append_cases]
  by_cases hE : trimRight q = []
  · rw [if_pos hE, trimRight_eq_self_of_last hne hlast]
  · rw [if_neg hE]
    exact ⟨trimRight q, rfl⟩

theorem prefixOf_trimSpace {p s : List Char} (h : p <+: s) (hne : p ≠ [])
    (hh : goIsSpace (p.headD ' ') = false)
    (hlast : goIsSpace (p.getLast hne) = false) : p <+: trimSpace s := by
  cases p with
  | nil => exact absurd rfl hne
  | cons c p' =>
    obtain ⟨q, hq⟩ := h
    subst hq
    rw [trimSpace, trimLeft, List.cons_append,
      List.dropWhile_cons_of_neg (by simpa using hh)]
    exact prefixOf_trimRight ⟨q, List.cons_append c p' q⟩ hne hlast

theorem prefixOf_stripStep {p s : List Char} (hpre : p <+: s) (hne : p ≠ [])
    (hh : goIsSpace (p.headD ' ') = false)
    (hld : p.getLast hne ≠ '-') (hls : goIsSpace (p.getLast hne) = false)
    (hsuf : goHasSuffix s dashes = true) :
    p <+: trimSpace (goTrimSuffix s dashes) := by
  have hsfx : dashes <:+ s := (List.isSuffixOf_iff_suffix).mp hsuf
  obtain ⟨r, hr⟩ := hsfx
  subst hr
  have hd3 : dashes.length = 3 := by decide
  have htake : goTrimSuffix (r ++ dashes) dashes = r := by
    rw [goTrimSuffix, if_pos hsuf]
    have hlen : (r ++ dashes).length - dashes.length = r.length := by
      simp
    rw [hlen, List.take_left]
  rw [htake]
  have hpr : p <+: r := by
    by_cases hlen : p.length ≤ r.length
    · exact List.prefix_of_prefix_length_le hpre ⟨dashes, rfl⟩ hlen
    · exfalso
      push_neg at hlen
      have hrp : r <+: p :=
        List.prefix_of_prefix_length_le ⟨dashes, rfl⟩ hpre (le_of_lt hlen)
      obtain ⟨p', hp'⟩ := hrp
      have hp'ne : p' ≠ [] := by
        intro hE
        rw [hE, List.append_nil] at hp'
        rw [← hp'] at hlen
        exact lt_irrefl _ hlen
      subst hp'
      have hsub : p' <+: dashes := (List.prefix_append_right_inj r).mp hpre
      have hgl : (r ++ p').getLast hne = p'.getLast hp'ne :=
        List.getLast_append_of_ne_nil hp'ne
      have hmem : (r ++ p').getLast hne ∈ dashes := by
        rw [hgl]
        exact hsub.sublist.subset (List.getLast_mem hp'ne)
      exact hld (dashes_all _ hmem)
  exact prefixOf_trimSpace hpr hne hh hls

theorem prefixOf_stripTrailingDashes_aux (p : List Char) (hne : p ≠ [])
    (hh : goIsSpace (p.headD ' ') = false)
    (hld : p.getLast hne ≠ '-') (hls : goIsSpace (p.getLast hne) = false) :
    ∀ n (s : List Char), s.length ≤ n → p <+: s → p <+: stripTrailingDashes s := by
  intro n
  induction n with
  | zero =>
    intro s hs hp
    have hnil : s = [] := List.eq_nil_of_length_eq_zero (Nat.le_zero.mp hs)
    subst hnil
    exact absurd (List.prefix_nil.mp hp) hne
  | succ n ih =>
    intro s hs hp
    rw [stripTrailingDashes_eq]
    by_cases hsuf : goHasSuffix s dashes
    · rw [if_pos hsuf]
      exact ih _ (by have := strip_step_length hsuf; omega)
        (prefixOf_stripStep hp hne hh hld hls hsuf)
    · rw [if_neg hsuf]
      exact hp

theorem prefixOf_stripTrailingDashes {p s : List Char} (hp : p <+: s) (hne : p ≠ [])
    (hh : goIsSpace (p.headD ' ') = false)
    (hld : p.getLast hne ≠ '-') (hls : goIsSpace (p.getLast hne) = false) :
    p <+: stripTrailingDashes s :=
  prefixOf_stripTrailingDashes_aux p hne hh hld hls s.length s le_rfl hp

/-! ## Idempotence of extraction on fence-free results -/

theorem trimLeft_cons_eq {c : Char} (hc : goIsSpace c = false) (t : List Char) :
    trimLeft (c :: t) = c :: t := by
  rw [trimLeft, List.dropWhile_cons_of_neg (by simp [hc])]

theorem extract_unfold_some {y : List Char} {j : Nat}
    (hj : findHeaderIdx (splitLines y) = some j) :
    extractCommitMessage y =
      stripTrailingDashes (trimSpace (joinLines (takeUntilFence ((splitLines y).drop j)))) := by
  simp [extractCommitMessage, hj]

theorem extract_unfold_none {y : List Char} (hj : findHeaderIdx (splitLines y) = none) :
    extractCommitMessage y = y := by
  simp [extractCommitMessage, hj]

theorem extract_result_struct {x : List Char} {i : Nat}
    (hfind : findHeaderIdx (splitLines x) = some i) :
    ∃ typ ∈ conventionalTypes, ∃ d ∈ delims,
      (typ ++ [d]) <+: extractCommitMessage x ∧
      trimSpace (extractCommitMessage x) = extractCommitMessage x ∧
      goHasSuffix (extractCommitMessage x) dashes = false := by
  obtain ⟨l₀, rest, hdrop, hhl⟩ := findHeaderIdx_some_drop _ _ hfind
  obtain ⟨typ, htyp, d, hd, hp⟩ := isHeaderLine_elim hhl
  obtain ⟨htne, hhead, hheadF, hnlt⟩ := types_facts typ htyp
  obtain ⟨hdsp, hdd, hdn⟩ := delims_facts d hd
  obtain ⟨c, typ', rfl⟩ : ∃ c typ', typ = c :: typ' := by
    cases typ with
    | nil => exact absurd rfl htne
    | cons a b => exact ⟨a, b, rfl⟩
  have hhead' : goIsSpace c = false := by simpa using hhead
  have hheadF' : c ∉ "```".data := by simpa using hheadF
  rw [extract_unfold_some hfind, hdrop]
  have hfence : trimSpace l₀ ≠ "```".data := by
    intro hEq
    rw [hEq] at hp
    obtain ⟨t, ht⟩ := hp
    have hcmem : c ∈ "```".data := by
      rw [← ht]; simp
    exact hheadF' hcmem
  rw [takeUntilFence, if_neg hfence]
  obtain ⟨tl, hjoin⟩ : ∃ tl, joinLines (l₀ :: takeUntilFence rest) = l₀ ++ tl :=
    ⟨_, joinLines_cons_eq _ _⟩
  rw [hjoin]
  have hpne : ((c :: typ') ++ [d]) ≠ [] := by simp
  have hplast : ((c :: typ') ++ [d]).getLast hpne = d := List.getLast_concat (c :: typ')
  have hphead : goIsSpace (((c :: typ') ++ [d]).headD ' ') = false := by
    simp only [List.cons_append, List.headD_cons]
    exact hhead'
  obtain ⟨v, hv, hvsp⟩ := trimRight_decomp (trimLeft l₀)
  have hv' : trimLeft l₀ = trimSpace l₀ ++ v := hv
  have hu : l₀ = l₀.takeWhile goIsSpace ++ trimLeft l₀ :=
    (List.takeWhile_append_dropWhile goIsSpace l₀).symm
  have husp : ∀ a ∈ l₀.takeWhile goIsSpace, goIsSpace a = true :=
    fun a ha => List.mem_takeWhile_imp ha
  obtain ⟨t₀, ht₀⟩ := hp
  have hjoined : l₀ ++ tl = l₀.takeWhile goIsSpace ++ (trimSpace l₀ ++ (v ++ tl)) := by
    conv_lhs => rw [hu, hv']
    simp [List.append_assoc]
  have htl : trimLeft (l₀ ++ tl) = trimSpace l₀ ++ (v ++ tl) := by
    conv_lhs => rw [hjoined]
    rw [trimLeft, List.dropWhile_append_of_pos husp]
    show trimLeft (trimSpace l₀ ++ (v ++ tl)) = trimSpace l₀ ++ (v ++ tl)
    rw [← ht₀]
    simp only [List.cons_append, List.append_assoc]
    rw [trimLeft_cons_eq hhead']
  have hTS : trimSpace (l₀ ++ tl) = trimSpace (trimSpace l₀ ++ (v ++ tl)) := by
    rw [← trimSpace_trimLeft (l₀ ++ tl), htl]
  have hpre1 : ((c :: typ') ++ [d]) <+: trimSpace l₀ ++ (v ++ tl) := by
    refine ⟨t₀ ++ (v ++ tl), ?_⟩
    rw [← ht₀]
    simp [List.append_assoc]
  have hpre2 : ((c :: typ') ++ [d]) <+: trimSpace (l₀ ++ tl) := by
    rw [hTS]
    exact prefixOf_trimSpace hpre1 hpne hphead (by rw [hplast]; exact hdsp)
  refine ⟨c :: typ', htyp, d, hd, ?_, ?_, ?_⟩
  · exact prefixOf_stripTrailingDashes hpre2 hpne hphead
      (by rw [hplast]; exact hdd) (by rw [hplast]; exact hdsp)
  · exact stripTrailingDashes_trimmed (trimSpace_trimSpace _)
  · exact stripTrailingDashes_no_suffix _

/-- C4 fails in general (see the counterexample), but holds on every input
whose extraction result contains no line trimming to a triple-backtick
fence: for such inputs extraction is idempotent. -/
theorem claim_C4 (x : List Char)
    (h : ∀ l ∈ splitLines (extractCommitMessage x), trimSpace l ≠ "```".data) :
    extractCommitMessage (extractCommitMessage x) = extractCommitMessage x := by
  cases hfind : findHeaderIdx (splitLines x) with
  | none =>
    have hx : extractCommitMessage x = x := extract_unfold_none hfind
    rw [hx]
    exact hx
  | some i =>
    obtain ⟨typ, htyp, d, hd, hp, htrim, hsuf⟩ := extract_result_struct hfind
    obtain ⟨r₂, hsplit⟩ := splitLines_head_eq (extractCommitMessage x)
    obtain ⟨htne, hhead, hheadF, hnlt⟩ := types_facts typ htyp
    obtain ⟨hdsp, hdd, hdn⟩ := delims_facts d hd
    obtain ⟨c, typ', rfl⟩ : ∃ c typ', typ = c :: typ' := by
      cases typ with
      | nil => exact absurd rfl htne
      | cons a b => exact ⟨a, b, rfl⟩
    have hhead' : goIsSpace c = false := by simpa using hhead
    have hpne : ((c :: typ') ++ [d]) ≠ [] := by simp
    have hplast : ((c :: typ') ++ [d]).getLast hpne = d := List.getLast_concat (c :: typ')
    have hphead : goIsSpace (((c :: typ') ++ [d]).headD ' ') = false := by
      simp only [List.cons_append, List.headD_cons]
      exact hhead'
    have hnl : ∀ a ∈ (c :: typ') ++ [d], (a != '\n') = true := by
      intro a ha
      rw [List.mem_append] at ha
      rcases ha with ha | ha
      · have : a ≠ '\n' := fun hEq => hnlt (hEq ▸ ha)
        simpa using this
      · have : a = d := by simpa using ha
        subst this
        simpa using hdn
    have hp1 : ((c :: typ') ++ [d]) <+:
        (extractCommitMessage x).takeWhile (fun ch => ch != '\n') :=
      takeWhile_pres_prefixOf hp hnl
    have hfl : isHeaderLine ((extractCommitMessage x).takeWhile (fun ch => ch != '\n')) = true := by
      refine isHeaderLine_intro htyp hd ?_
      exact prefixOf_trimSpace hp1 hpne hphead (by rw [hplast]; exact hdsp)
    have hfind2 : findHeaderIdx (splitLines (extractCommitMessage x)) = some 0 := by
      rw [hsplit]
      exact findHeaderIdx_cons_pos hfl
    rw [extract_unfold_some hfind2, List.drop_zero, takeUntilFence_eq_self h, joinLines_splitLines, htrim,
      stripTrailingDashes_eq, if_neg (by simp [hsuf])]

/-- Witness for C4 (amended) at a concrete input with preamble and a fence:
its extraction result has no fence line, so a second extraction is a
no-op. -/
theorem claim_C4_witness :
    extractCommitMessage (extractCommitMessage "hi\nfeat: y\n```\njunk".data) =
      extractCommitMessage "hi\nfeat: y\n```\njunk".data :=
  claim_C4 "hi\nfeat: y\n```\njunk".data (by decide)

/-! ## Claim theorems: confirmation loop and file selector -/

/-- C8: in the confirmation loop the inputs `"n"`, `"N"`, `"no"` and the
empty line (trimmed and lowercased before comparison) all cancel: the loop
ends in the zero-exit cancellation outcome and no backend commit call is
made. -/
theorem claim_C8 (msg inp : List Char) (ef : Option (List Char)) (ck : Bool)
    (rest : List LoopStep)
    (h : inp = "n".data ∨ inp = "N".data ∨ inp = "no".data ∨ inp = []) :
    (confirmLoop msg (⟨inp, ef, ck⟩ :: rest)).1 = [] ∧
    (confirmLoop msg (⟨inp, ef, ck⟩ :: rest)).2 = Outcome.canceledZero := by
  rcases h with h | h | h | h <;> subst h <;> exact ⟨rfl, rfl⟩

/-- Witness for C8 with input `"N"`. -/
theorem claim_C8_witness :
    (confirmLoop "fix: a".data [⟨"N".data, none, true⟩]).1 = [] ∧
    (confirmLoop "fix: a".data [⟨"N".data, none, true⟩]).2 = Outcome.canceledZero :=
  claim_C8 "fix: a".data "N".data none true [] (Or.inr (Or.inl rfl))

/-- C9: with exactly 3 entries, the input sequence `["1 3", ""]` first
toggles entries 1 and 3 (1-indexed) off, then the empty line confirms, and
the selector returns exactly entry 2. -/
theorem claim_C9 (e₁ e₂ e₃ : JJFileEntry) :
    selectJJFiles [e₁, e₂, e₃] none ["1 3".data, []] = some [e₂] := rfl

theorem confirmLoop_commit_nonempty :
    ∀ (steps : List LoopStep) (msg : List Char), msg ≠ [] →
      ∀ m, Event.commitCall m ∈ (confirmLoop msg steps).1 → m ≠ [] := by
  intro steps
  induction steps with
  | nil =>
    intro msg _ m hm
    simp [confirmLoop] at hm
  | cons step rest ih =>
    intro msg hmsg m hm
    simp only [confirmLoop] at hm
    by_cases hy : goToLower (trimSpace step.input) = "y".data ∨
        goToLower (trimSpace step.input) = "yes".data
    · rw [if_pos hy] at hm
      simp only [List.mem_singleton, Event.commitCall.injEq] at hm
      subst hm
      exact hmsg
    · rw [if_neg hy] at hm
      by_cases he : goToLower (trimSpace step.input) = "e".data ∨
          goToLower (trimSpace step.input) = "edit".data
      · rw [if_pos he] at hm
        cases hef : step.editFile with
        | none =>
          rw [hef] at hm
          exact ih msg hmsg m hm
        | some content =>
          rw [hef] at hm
          replace hm : Event.commitCall m ∈
              (if trimSpace content = [] then confirmLoop msg rest
               else confirmLoop (trimSpace content) rest).1 := hm
          by_cases hemp : trimSpace content = []
          · rw [if_pos hemp] at hm
            exact ih msg hmsg m hm
          · rw [if_neg hemp] at hm
            exact ih _ hemp m hm
      · rw [if_neg he] at hm
        by_cases hn : goToLower (trimSpace step.input) = "n".data ∨
            goToLower (trimSpace step.input) = "no".data ∨
            goToLower (trimSpace step.input) = []
        · rw [if_pos hn] at hm
          simp at hm
        · rw [if_neg hn] at hm
          exact ih msg hmsg m hm

/-- C3: in every reachable state of the confirmation flow — auto-confirm
included, and after any sequence of edit actions — a backend commit call
always carries a non-empty message: an empty generated message aborts before
any confirmation, and an edit that fails or yields an empty result keeps the
previous message. -/
theorem claim_C3 (autoConfirm : Bool) (commitMessage : List Char) (autoCommitOk : Bool)
    (steps : List LoopStep) (m : List Char)
    (hm : Event.commitCall m ∈
      (mainConfirmFlow autoConfirm commitMessage autoCommitOk steps).events) :
    m ≠ [] := by
  rw [mainConfirmFlow] at hm
  by_cases hempty : commitMessage = []
  · rw [if_pos hempty] at hm
    simp [FlowResult.events] at hm
  · rw [if_neg hempty] at hm
    by_cases herr : looksLikeAIError commitMessage = true
    · rw [if_pos herr] at hm
      simp [FlowResult.events] at hm
    · rw [if_neg herr] at hm
      by_cases hauto : autoConfirm = true
      · rw [if_pos hauto] at hm
        simp only [FlowResult.events, List.mem_singleton, Event.commitCall.injEq] at hm
        subst hm
        exact hempty
      · rw [if_neg hauto] at hm
        cases hcl : confirmLoop commitMessage steps with
        | mk evs outc =>
          rw [hcl] at hm
          simp only [FlowResult.events] at hm
          refine confirmLoop_commit_nonempty steps commitMessage hempty m ?_
          rw [hcl]
          exact hm

/-- Witness for C3: in auto-confirm mode with a concrete non-empty message
the flow makes exactly one commit call, and the theorem yields its
non-emptiness. -/
theorem claim_C3_witness : "fix: a".data ≠ ([] : List Char) :=
  claim_C3 true "fix: a".data true [] "fix: a".data (by decide)

/-! ## Claim theorems: executor output filtering -/

theorem prefixOf_append_nl {p u v : List Char} (h : p <+: u ++ '\n' :: v)
    (hnl : '\n' ∉ p) : p <+: u := by
  induction u generalizing p with
  | nil =>
    rw [List.nil_append, List.prefix_cons_iff] at h
    rcases h with h | ⟨t, ht, _⟩
    · subst h; exact ⟨[], rfl⟩
    · subst ht
      exact absurd (by simp) hnl
  | cons a u ih =>
    rw [List.cons_append, List.prefix_cons_iff] at h
    rcases h with h | ⟨t, ht, hrest⟩
    · subst h; exact ⟨a :: u, rfl⟩
    · subst ht
      rw [List.cons_prefix_cons]
      exact ⟨rfl, ih hrest (fun hc => hnl (by simp [hc]))⟩

theorem infixOf_append_nl {pat u v : List Char} (h : pat <:+: u ++ '\n' :: v)
    (hnl : '\n' ∉ pat) (hne : pat ≠ []) : pat <:+: u ∨ pat <:+: v := by
  induction u with
  | nil =>
    rw [List.nil_append, List.infix_cons_iff] at h
    rcases h with h | h
    · rw [List.prefix_cons_iff] at h
      rcases h with h | ⟨t, ht, _⟩
      · exact absurd h hne
      · subst ht
        exact absurd (by simp) hnl
    · exact Or.inr h
  | cons a u ih =>
    rw [List.cons_append, List.infix_cons_iff] at h
    rcases h with h | h
    · exact Or.inl (@prefixOf_append_nl pat (a :: u) v h hnl).isInfix
    · rcases ih h with h' | h'
      · exact Or.inl (List.infix_cons h')
      · exact Or.inr h'

theorem not_infixOf_joinLines {pat : List Char} (hne : pat ≠ []) (hnl : '\n' ∉ pat) :
    ∀ ls : List (List Char), (∀ l ∈ ls, ¬ pat <:+: l) → ¬ pat <:+: joinLines ls := by
  intro ls
  induction ls with
  | nil =>
    intro _ h
    rw [show joinLines [] = [] from rfl, List.infix_nil] at h
    exact hne h
  | cons l ls ih =>
    intro hall h
    cases ls with
    | nil => exact hall l (by simp) h
    | cons l' ls' =>
      rw [joinLines_cons_eq] at h
      replace h : pat <:+: l ++ '\n' :: joinLines (l' :: ls') := h
      rcases infixOf_append_nl h hnl hne with h' | h'
      · exact hall l (by simp) h'
      · exact ih (fun a ha => hall a (by simp [ha])) h'

theorem trimSpace_infixOf (s : List Char) : trimSpace s <:+: s :=
  ((trimRight_prefixOf (trimLeft s)).isInfix).trans (List.dropWhile_suffix goIsSpace).isInfix

theorem filter_no_infix (pat : List Char) (hne : pat ≠ []) (hnl : '\n' ∉ pat)
    (out : List Char) (q : List Char → Bool)
    (hq : ∀ l, q l = true → ¬ pat <:+: l) :
    ¬ pat <:+: trimSpace (joinLines ((splitLines out).filter q)) := by
  intro h
  have h2 : pat <:+: joinLines ((splitLines out).filter q) :=
    h.trans (trimSpace_infixOf _)
  exact not_infixOf_joinLines hne hnl _ (fun l hl => hq l (List.of_mem_filter hl)) h2

/-- C10: a successful `ClaudeExecutor.Execute` result contains neither of the
Claude footer markers anywhere (so no line contains them), and is trimmed;
a successful `GeminiExecutor.Execute` result contains no credentials-noise
line and is trimmed.  These provider noise lines therefore never reach the
response extractor or a committed message. -/
theorem claim_C10 (out : List Char) :
    goContains (claudeFilterOutput out) "🤖 Generated with".data = false ∧
    goContains (claudeFilterOutput out) "Co-Authored-By: Claude".data = false ∧
    trimSpace (claudeFilterOutput out) = claudeFilterOutput out ∧
    goContains (geminiFilterOutput out) "Loaded cached credentials.".data = false ∧
    trimSpace (geminiFilterOutput out) = geminiFilterOutput out := by
  have hq1 : ∀ l : List Char, (!goContains l "🤖 Generated with".data &&
      !goContains l "Co-Authored-By: Claude".data) = true →
      ¬ "🤖 Generated with".data <:+: l := by
    intro l hl
    rw [Bool.and_eq_true] at hl
    have h := hl.1
    rw [Bool.not_eq_true', goContains] at h
    exact of_decide_eq_false h
  have hq2 : ∀ l : List Char, (!goContains l "🤖 Generated with".data &&
      !goContains l "Co-Authored-By: Claude".data) = true →
      ¬ "Co-Authored-By: Claude".data <:+: l := by
    intro l hl
    rw [Bool.and_eq_true] at hl
    have h := hl.2
    rw [Bool.not_eq_true', goContains] at h
    exact of_decide_eq_false h
  have hq3 : ∀ l : List Char, (!goContains l "Loaded cached credentials.".data) = true →
      ¬ "Loaded cached credentials.".data <:+: l := by
    intro l hl
    rw [Bool.not_eq_true', goContains] at hl
    exact of_decide_eq_false hl
  have h1 := filter_no_infix "🤖 Generated with".data (by decide) (by decide) out _ hq1
  have h2 := filter_no_infix "Co-Authored-By: Claude".data (by decide) (by decide) out _ hq2
  have h3 := filter_no_infix "Loaded cached credentials.".data (by decide) (by decide) out _ hq3
  refine ⟨?_, ?_, trimSpace_trimSpace _, ?_, trimSpace_trimSpace _⟩
  · rw [goContains]
    exact decide_eq_false h1
  · rw [goContains]
    exact decide_eq_false h2
  · rw [goContains]
    exact decide_eq_false h3

/-! ## Claim theorems: partial commit -/

theorem buildSaved_spec (fs : FS) :
    ∀ (l : List JJFileEntry) (s : List SavedFile), buildSaved fs l = .ok s →
      s.map (fun f => f.path) = l.map (fun e => e.path) ∧
      ∀ sf ∈ s, (sf.deleted = false → fs sf.path = some sf.content) ∧
        (sf.deleted = true → ∃ e ∈ l, e.path = sf.path ∧ e.status = "D".data) := by
  intro l
  induction l with
  | nil =>
    intro s hs
    simp only [buildSaved] at hs
    injection hs with hs
    subst hs
    exact ⟨rfl, by simp⟩
  | cons e rest ih =>
    intro s hs
    rw [buildSaved] at hs
    by_cases hst : e.status = "D".data
    · rw [if_pos hst] at hs
      cases hb : buildSaved fs rest with
      | error p =>
        rw [hb] at hs
        simp [Except.map] at hs
      | ok s' =>
        rw [hb] at hs
        simp only [Except.map] at hs
        injection hs with hs
        subst hs
        obtain ⟨hp, hd⟩ := ih s' hb
        refine ⟨by simp [hp], ?_⟩
        intro sf hsf
        rcases List.mem_cons.mp hsf with rfl | hsf
        · exact ⟨fun h => by simp at h, fun _ => ⟨e, by simp, rfl, hst⟩⟩
        · obtain ⟨h1, h2⟩ := hd sf hsf
          refine ⟨h1, fun hdel => ?_⟩
          obtain ⟨e', he', hpa, hstt⟩ := h2 hdel
          exact ⟨e', by simp [he'], hpa, hstt⟩
    · rw [if_neg hst] at hs
      cases hfs : fs e.path with
      | none =>
        rw [hfs] at hs
        simp at hs
      | some c =>
        rw [hfs] at hs
        cases hb : buildSaved fs rest with
        | error p =>
          rw [hb] at hs
          simp [Except.map] at hs
        | ok s' =>
          rw [hb] at hs
          simp only [Except.map] at hs
          injection hs with hs
          subst hs
          obtain ⟨hp, hd⟩ := ih s' hb
          refine ⟨by simp [hp], ?_⟩
          intro sf hsf
          rcases List.mem_cons.mp hsf with rfl | hsf
          · exact ⟨fun _ => by simpa using hfs, fun h => by simp at h⟩
          · obtain ⟨h1, h2⟩ := hd sf hsf
            refine ⟨h1, fun hdel => ?_⟩
            obtain ⟨e', he', hpa, hstt⟩ := h2 hdel
            exact ⟨e', by simp [he'], hpa, hstt⟩

theorem applyAll_not_mem :
    ∀ (l : List SavedFile) (fs : FS) (p : Path),
      p ∉ l.map (fun f => f.path) → applyAll fs l p = fs p := by
  intro l
  induction l with
  | nil => intro fs p _; rfl
  | cons sf rest ih =>
    intro fs p hp
    rw [List.map_cons, List.mem_cons] at hp
    push_neg at hp
    rw [applyAll, ih _ _ hp.2, applySaved, if_neg hp.1]

theorem applyAll_restores (fs₀ : FS) :
    ∀ (l : List SavedFile) (fs' : FS),
      (∀ sf ∈ l, (sf.deleted = true → fs₀ sf.path = none) ∧
        (sf.deleted = false → fs₀ sf.path = some sf.content)) →
      ∀ sf ∈ l, applyAll fs' l sf.path = fs₀ sf.path := by
  intro l
  induction l with
  | nil =>
    intro fs' _ sf hsf
    simp at hsf
  | cons g rest ih =>
    intro fs' hdisp sf hsf
    rw [applyAll]
    rcases List.mem_cons.mp hsf with rfl | hsf'
    · by_cases hmem : sf.path ∈ rest.map (fun f => f.path)
      · rw [List.mem_map] at hmem
        obtain ⟨sf', hsf', hpeq⟩ := hmem
        have h := ih (applySaved fs' sf) (fun a ha => hdisp a (by simp [ha])) sf' hsf'
        rw [hpeq] at h
        exact h
      · rw [applyAll_not_mem rest _ _ hmem, applySaved, if_pos rfl]
        obtain ⟨hd1, hd2⟩ := hdisp sf (by simp)
        cases hdel : sf.deleted with
        | true => simpa using (hd1 hdel).symm
        | false => simpa using (hd2 hdel).symm
    · exact ih (applySaved fs' g) (fun a ha => hdisp a (by simp [ha])) sf hsf'

theorem finalRestore_none (allSaved : List SavedFile) :
    ∀ (l : List SavedFile) (i : Nat) (fs : FS),
      finalRestore none allSaved i fs l = (applyAll fs l, none, []) := by
  intro l
  induction l with
  | nil => intro i fs; rfl
  | cons sf rest ih =>
    intro i fs
    rw [finalRestore, if_neg (by simp [ctxDone]), ih, applyAll]

theorem finalRestore_cancel (allSaved : List SavedFile) (n : Nat) :
    ∀ (l : List SavedFile) (i : Nat) (fs : FS), i ≤ n → n - i < l.length →
      finalRestore (some n) allSaved i fs l =
        (applyAll fs (l.take (n - i)), some .canceled,
          allSaved.map (fun f => f.path)) := by
  intro l
  induction l with
  | nil =>
    intro i fs _ h
    simp at h
  | cons sf rest ih =>
    intro i fs hin hlen
    rw [finalRestore]
    by_cases hni : n ≤ i
    · rw [if_pos (by simp [ctxDone]; omega)]
      have h0 : n - i = 0 := by omega
      rw [h0, List.take_zero]
      rfl
    · rw [if_neg (by simp [ctxDone]; omega)]
      have h1 : i + 1 ≤ n := by omega
      have h2 : n - (i + 1) < rest.length := by
        simp only [List.length_cons] at hlen
        omega
      rw [ih (i + 1) (applySaved fs sf) h1 h2]
      have h3 : n - i = (n - (i + 1)) + 1 := by omega
      rw [h3, List.take_succ_cons, applyAll]

theorem jjPartialCommit_ok_eq {parentFS fs : FS} {commitOk : Bool}
    {cancelAt : Option Nat} {selectedPaths : List Path}
    {allEntries : List JJFileEntry} {savedFiles : List SavedFile}
    (hne : (excludedOf selectedPaths allEntries).isEmpty = false)
    (hb : buildSaved fs (excludedOf selectedPaths allEntries) = .ok savedFiles) :
    jjPartialCommit parentFS true commitOk cancelAt fs selectedPaths allEntries =
      jjPartialCommitSaved parentFS fs commitOk cancelAt
        ((excludedOf selectedPaths allEntries).map (fun e => e.path)) savedFiles := by
  simp [jjPartialCommit, hne, hb]

theorem jjPartialCommit_error_eq {parentFS fs : FS} {restoreOk commitOk : Bool}
    {cancelAt : Option Nat} {selectedPaths : List Path}
    {allEntries : List JJFileEntry} {p : Path}
    (hne : (excludedOf selectedPaths allEntries).isEmpty = false)
    (hb : buildSaved fs (excludedOf selectedPaths allEntries) = .error p) :
    jjPartialCommit parentFS restoreOk commitOk cancelAt fs selectedPaths allEntries =
      ⟨fs, some (.readFailed p), []⟩ := by
  simp [jjPartialCommit, hne, hb]

theorem jjPartialCommitSaved_fail (parentFS fs : FS) (cancelAt : Option Nat)
    (ep : List Path) (sf : List SavedFile) :
    jjPartialCommitSaved parentFS fs false cancelAt ep sf =
      ⟨applyAll (jjRestore parentFS fs ep) sf, some .commitFailed, []⟩ := rfl

theorem jjPartialCommitSaved_none (parentFS fs : FS) (ep : List Path)
    (sf : List SavedFile) :
    jjPartialCommitSaved parentFS fs true none ep sf =
      ⟨applyAll (jjRestore parentFS fs ep) sf, none, []⟩ := by
  simp only [jjPartialCommitSaved, if_true]
  rw [finalRestore_none]

theorem jjPartialCommitSaved_cancel (parentFS fs : FS) (ep : List Path)
    (sf : List SavedFile) (n : Nat) (hn : n < sf.length) :
    jjPartialCommitSaved parentFS fs true (some n) ep sf =
      ⟨applyAll (jjRestore parentFS fs ep) (sf.take n),
        some .canceled, sf.map (fun f => f.path)⟩ := by
  simp only [jjPartialCommitSaved, if_true]
  rw [finalRestore_cancel sf n sf 0 _ (Nat.zero_le n) (by simpa using hn)]
  simp

/-- C1: with the excluded files' save phase and the `jj restore` command
succeeding, and outside the documented cancellation-during-final-restoration
case (either the commit failed — its rollback polls no signal — or the
signal never fires), every excluded file's on-disk content after
`jjPartialCommit` is exactly its pre-operation content; with `hD` (a file
reported Deleted is absent on disk) an excluded Deleted file hence remains
deleted.  In the commit-failure case the function returns the commit error —
with the restored state — unless it never reached the commit because saving
an excluded file's content failed (in which case the tree was never
touched). -/
theorem claim_C1 (parentFS fs : FS) (commitOk : Bool) (cancelAt : Option Nat)
    (selectedPaths : List Path) (allEntries : List JJFileEntry)
    (hD : ∀ e ∈ allEntries, e.status = "D".data → fs e.path = none)
    (hNC : commitOk = false ∨ cancelAt = none)
    (e : JJFileEntry) (he : e ∈ allEntries) (hex : e.path ∉ selectedPaths) :
    (jjPartialCommit parentFS true commitOk cancelAt fs selectedPaths allEntries).fs e.path
      = fs e.path ∧
    (commitOk = false →
      (jjPartialCommit parentFS true commitOk cancelAt fs selectedPaths allEntries).err
          = some PCError.commitFailed ∨
        ∃ p, (jjPartialCommit parentFS true commitOk cancelAt fs selectedPaths allEntries).err
          = some (PCError.readFailed p)) := by
  have hemem : e ∈ excludedOf selectedPaths allEntries := by
    rw [excludedOf, List.mem_filter]
    exact ⟨he, by simpa using hex⟩
  have hne : (excludedOf selectedPaths allEntries).isEmpty = false := by
    cases hE : excludedOf selectedPaths allEntries with
    | nil =>
      rw [hE] at hemem
      simp at hemem
    | cons a l => rfl
  cases hb : buildSaved fs (excludedOf selectedPaths allEntries) with
  | error p =>
    rw [jjPartialCommit_error_eq hne hb]
    exact ⟨rfl, fun _ => Or.inr ⟨p, rfl⟩⟩
  | ok savedFiles =>
    rw [jjPartialCommit_ok_eq hne hb]
    obtain ⟨hpaths, hdisp⟩ := buildSaved_spec fs _ savedFiles hb
    have hdisp' : ∀ sf ∈ savedFiles,
        (sf.deleted = true → fs sf.path = none) ∧
        (sf.deleted = false → fs sf.path = some sf.content) := by
      intro sf hsf
      obtain ⟨h1, h2⟩ := hdisp sf hsf
      refine ⟨fun hdel => ?_, h1⟩
      obtain ⟨e', he', hpa, hstt⟩ := h2 hdel
      have he'' : e' ∈ allEntries := (List.mem_filter.mp he').1
      rw [← hpa]
      exact hD e' he'' hstt
    have hpe : e.path ∈ savedFiles.map (fun f => f.path) := by
      rw [hpaths]
      exact List.mem_map.mpr ⟨e, hemem, rfl⟩
    obtain ⟨sf, hsf, hsfp⟩ := List.mem_map.mp hpe
    have key : ∀ fs', applyAll fs' savedFiles e.path = fs e.path := by
      intro fs'
      rw [← hsfp]
      exact applyAll_restores fs savedFiles fs' hdisp' sf hsf
    cases commitOk with
    | false =>
      rw [jjPartialCommitSaved_fail]
      exact ⟨key _, fun _ => Or.inl rfl⟩
    | true =>
      have hcn : cancelAt = none := by
        rcases hNC with h | h
        · exact absurd h (by simp)
        · exact h
      subst hcn
      rw [jjPartialCommitSaved_none]
      exact ⟨key _, fun h => by simp at h⟩

/-- Witness for C1: a concrete run (three modified files, one selected,
commit succeeds, no cancellation) restores excluded file `b` to its
pre-operation content. -/
theorem claim_C1_witness :
    (jjPartialCommit
        (fun p => if p = "a".data then some "A0".data else none)
        true true none
        (fun p => if p = "a".data then some "A1".data
          else if p = "b".data then some "B1".data else none)
        ["a".data]
        [⟨"M".data, "a".data⟩, ⟨"M".data, "b".data⟩]).fs "b".data =
      (fun p : Path => if p = "a".data then some "A1".data
        else if p = "b".data then some "B1".data else none) "b".data ∧
    (true = false →
      (jjPartialCommit
        (fun p => if p = "a".data then some "A0".data else none)
        true true none
        (fun p => if p = "a".data then some "A1".data
          else if p = "b".data then some "B1".data else none)
        ["a".data]
        [⟨"M".data, "a".data⟩, ⟨"M".data, "b".data⟩]).err = some PCError.commitFailed ∨
      ∃ p, (jjPartialCommit
        (fun p => if p = "a".data then some "A0".data else none)
        true true none
        (fun p => if p = "a".data then some "A1".data
          else if p = "b".data then some "B1".data else none)
        ["a".data]
        [⟨"M".data, "a".data⟩, ⟨"M".data, "b".data⟩]).err = some (PCError.readFailed p)) :=
  claim_C1 _ _ true none _ _ (by decide) (Or.inr rfl)
    ⟨"M".data, "b".data⟩ (by decide) (by decide)

/-! Concrete scenario for C2: three modified files, only `c` selected, so
`a` and `b` are excluded; the commit succeeds and the cancellation signal
fires before the second per-file restoration (iteration 1). -/

/-- Pre-operation working copy for the C2 scenario. -/
def c2fs : FS := fun p =>
  if p = "a".data then some "A1".data
  else if p = "b".data then some "B1".data
  else if p = "c".data then some "C1".data
  else none

/-- Parent-revision contents for the C2 scenario. -/
def c2parent : FS := fun p =>
  if p = "a".data then some "A0".data
  else if p = "b".data then some "B0".data
  else none

/-- Changed-file entries for the C2 scenario. -/
def c2entries : List JJFileEntry :=
  [⟨"M".data, "a".data⟩, ⟨"M".data, "b".data⟩, ⟨"M".data, "c".data⟩]

/-- The C2 scenario run. -/
def c2run : PCOutcome :=
  jjPartialCommit c2parent true true (some 1) c2fs ["c".data] c2entries

/-- C2 fails as stated: when the signal fires before the second per-file
restoration, file `a` has already been restored (its on-disk content is its
pre-operation content again), yet the printed recovery list is
`["a", "b"]` — every saved excluded path — and not the exact list `["b"]`
of not-yet-restored paths. -/
theorem claim_C2_cex :
    c2run.printed = ["a".data, "b".data] ∧
    c2run.fs "a".data = c2fs "a".data ∧
    c2run.fs "b".data ≠ c2fs "b".data ∧
    c2run.printed ≠ ["b".data] ∧
    c2run.err = some PCError.canceled := by decide

/-- C2 amended: the signal is checked before each per-file restoration; on
cancellation the loop aborts immediately — exactly the first `n` saved
dispositions have been applied — the cancellation is returned as the error,
and the printed recovery list is the full list of saved excluded paths
(including the already-restored ones), not only the not-yet-restored
paths. -/
theorem claim_C2 (parentFS fs : FS) (n : Nat) (selectedPaths : List Path)
    (allEntries : List JJFileEntry) (savedFiles : List SavedFile)
    (hne : (excludedOf selectedPaths allEntries).isEmpty = false)
    (hb : buildSaved fs (excludedOf selectedPaths allEntries) = .ok savedFiles)
    (hn : n < savedFiles.length) :
    (jjPartialCommit parentFS true true (some n) fs selectedPaths allEntries).err
        = some PCError.canceled ∧
    (jjPartialCommit parentFS true true (some n) fs selectedPaths allEntries).printed
        = savedFiles.map (fun f => f.path) ∧
    (jjPartialCommit parentFS true true (some n) fs selectedPaths allEntries).fs
        = applyAll
            (jjRestore parentFS fs ((excludedOf selectedPaths allEntries).map (fun e => e.path)))
            (savedFiles.take n) := by
  rw [jjPartialCommit_ok_eq hne hb, jjPartialCommitSaved_cancel _ _ _ _ _ hn]
  exact ⟨rfl, rfl, rfl⟩

/-- Witness for C2 (amended) at the concrete scenario. -/
theorem claim_C2_witness :
    (jjPartialCommit c2parent true true (some 1) c2fs ["c".data] c2entries).err
        = some PCError.canceled ∧
    (jjPartialCommit c2parent true true (some 1) c2fs ["c".data] c2entries).printed
        = [⟨"a".data, "A1".data, false⟩, ⟨"b".data, "B1".data, false⟩].map
            (fun f : SavedFile => f.path) ∧
    (jjPartialCommit c2parent true true (some 1) c2fs ["c".data] c2entries).fs
        = applyAll
            (jjRestore c2parent c2fs ((excludedOf ["c".data] c2entries).map (fun e => e.path)))
            ([⟨"a".data, "A1".data, false⟩, ⟨"b".data, "B1".data, false⟩].take 1) :=
  claim_C2 c2parent c2fs 1 ["c".data] c2entries
    [⟨"a".data, "A1".data, false⟩, ⟨"b".data, "B1".data, false⟩]
    (by decide) (by rfl) (by decide)

end Gcauto
